import Mathlib

/-!
Shallow embedding of `src/engine/backtest.py` (`backtest`).

Real numbers of the Python code (numpy/pandas floats) are modelled as `ℚ`,
with exact arithmetic.  Division by zero, which in numpy yields `inf`/`nan`
without raising, is the total `ℚ` junk division; every claim that depends on
a quotient carries the positivity preconditions under which the two agree.
The float `nan` sentinel produced by degenerate statistics is modelled with
`Option`: `none` is `nan`.  A Python exception aborting `backtest`
(`equity.iloc[-1]` on an empty series) is modelled by `backtest` returning
`none` for the whole report.

The Sharpe ratio `mean / std * sqrt 252` involves an irrational square root;
it is represented by the pair `(mean, sample variance)` of the period
returns, which determines the float value by that fixed formula
(`std = sqrt variance`, `std ≠ 0 ↔ variance ≠ 0`).
-/

namespace QuantBacktest

/-- Trade kind: `'buy'` or `'sell'` strings of the Python ledger. -/
inductive TradeKind where
  | buy
  | sell
deriving DecidableEq, Repr

/-- A ledger entry: the Python tuple `(kind, adjusted_price)`. -/
structure Trade where
  kind : TradeKind
  price : ℚ
deriving DecidableEq, Repr

/-- The loop state of `backtest`: `capital`, `position`, and the `equity`
and `trades` lists accumulated so far. -/
structure BTState where
  capital : ℚ
  position : ℚ
  equity : List ℚ
  trades : List Trade
deriving DecidableEq, Repr

/-- One iteration of the `for price, signal in zip(...)` loop body
(`backtest.py` lines 29-40): entry when `signal == 1 and position == 0`,
exit when `signal == -1 and position > 0`, then the mark-to-market equity
value `capital + position * price` is appended. -/
def btStep (fee : ℚ) (s : BTState) (ps : ℚ × ℤ) : BTState :=
  let price := ps.1
  let signal := ps.2
  let s1 :=
    if signal = 1 ∧ s.position = 0 then
      { s with
        position := s.capital / price
        capital := 0
        trades := s.trades ++ [⟨.buy, price * (1 + fee)⟩] }
    else if signal = -1 ∧ 0 < s.position then
      { s with
        capital := s.position * (price * (1 - fee))
        position := 0
        trades := s.trades ++ [⟨.sell, price * (1 - fee)⟩] }
    else s
  { s1 with equity := s1.equity ++ [s1.capital + s1.position * price] }

/-- The whole loop over the zipped (price, signal) series. -/
def btRun (fee : ℚ) : List (ℚ × ℤ) → BTState → BTState
  | [], s => s
  | p :: rest, s => btRun fee rest (btStep fee s p)

/-- Initial loop state: `capital = initial_capital`, `position = 0`, empty
equity and trade lists. -/
def initState (c : ℚ) : BTState := ⟨c, 0, [], []⟩

/-- `equity.pct_change().dropna()`: percentage change between consecutive
elements, the first (undefined) entry dropped. -/
def pctChangeAux (prev : ℚ) : List ℚ → List ℚ
  | [] => []
  | a :: rest => (a / prev - 1) :: pctChangeAux a rest

/-- `pct_change` over a whole series (empty when the series has length ≤ 1). -/
def pctChange : List ℚ → List ℚ
  | [] => []
  | a :: rest => pctChangeAux a rest

/-- Arithmetic mean of a list (used only on non-empty lists, as the code
guards every use). -/
def listMean (xs : List ℚ) : ℚ := xs.sum / xs.length

/-- Pandas sample variance (`ddof = 1`, the square of `Series.std()`):
`nan` (here `none`) when fewer than two points. -/
def sampleVar (xs : List ℚ) : Option ℚ :=
  if xs.length < 2 then none
  else some ((xs.map (fun x => (x - listMean xs) ^ 2)).sum / ((xs.length : ℚ) - 1))

/-- `returns.mean() / returns.std() * np.sqrt(252) if returns.std() else np.nan`
(line 50).  `returns.std()` is truthy when it is `nan` (fewer than two
returns, and then the quotient is `nan` anyway) or a non-zero number, and
falsy exactly when it is `0.0`.  So the result is a (finite) number iff the
sample variance exists and is non-zero, and it is then determined by the
pair `(mean, variance)` through the fixed formula `mean / sqrt var * sqrt 252`. -/
def sharpeOf (returns : List ℚ) : Option (ℚ × ℚ) :=
  match sampleVar returns with
  | none => none
  | some v => if v = 0 then none else some (listMean returns, v)

/-- Running maximum tail: `cummaxAux m xs` is the elementwise running max of
`xs` seeded with `m`. -/
def cummaxAux (m : ℚ) : List ℚ → List ℚ
  | [] => []
  | a :: rest => max m a :: cummaxAux (max m a) rest

/-- `equity.cummax()` (line 47). -/
def cummax : List ℚ → List ℚ
  | [] => []
  | a :: rest => a :: cummaxAux a rest

/-- `(equity - cum_max) / cum_max` (line 48), elementwise. -/
def drawdowns (xs : List ℚ) : List ℚ :=
  List.zipWith (fun e m => (e - m) / m) xs (cummax xs)

/-- `Series.min()` of a non-empty series (the empty case is unreachable:
the code fails earlier, at `iloc[-1]`). -/
def listMin : List ℚ → ℚ
  | [] => 0
  | a :: rest => rest.foldl min a

/-- The PnL pairing loop (lines 52-56): `trades[i][1] - trades[i-1][1]` for
`i = 1, 3, 5, ...`; a trailing unpaired element is dropped. -/
def pnlOf : List Trade → List ℚ
  | a :: b :: rest => (b.price - a.price) :: pnlOf rest
  | _ => []

/-- `profit_factor = -sum(wins) / sum(losses) if losses else np.nan` (line 64). -/
def profitFactorOf (pnl : List ℚ) : Option ℚ :=
  let wins := pnl.filter (fun p => 0 < p)
  let losses := pnl.filter (fun p => p < 0)
  if losses = [] then none else some (-(wins.sum) / losses.sum)

/-- The fixed-key result mapping of `backtest` (the `results` dict, minus the
plotting flag).  `Option` fields are the ones the code sets to `np.nan` in
degenerate cases. -/
structure Report where
  equity_curve : List ℚ
  final_value : ℚ
  total_return : ℚ
  max_drawdown : ℚ
  sharpe : Option (ℚ × ℚ)
  trade_count : ℕ
  win_rate : Option ℚ
  avg_win : ℚ
  avg_loss : ℚ
  profit_factor : Option ℚ
deriving DecidableEq, Repr

/-- `backtest(df, initial_capital, fee)`: the loop followed by the metrics
block.  `df['Close']` and `df['signal']` are the two input lists, walked by
`zip` (which silently truncates to the shorter).  `equity.iloc[-1]` raises
on an empty series; that abort is the `none` result. -/
def backtest (prices : List ℚ) (signals : List ℤ) (initial_capital : ℚ)
    (fee : ℚ) : Option Report :=
  let s := btRun fee (prices.zip signals) (initState initial_capital)
  let equity := s.equity
  match equity.getLast? with
  | none => none
  | some final_value =>
    let returns := pctChange equity
    let pnl := pnlOf s.trades
    let wins := pnl.filter (fun p => 0 < p)
    let losses := pnl.filter (fun p => p < 0)
    some
      { equity_curve := equity
        final_value := final_value
        total_return := final_value / initial_capital - 1
        max_drawdown := listMin (drawdowns equity)
        sharpe := sharpeOf returns
        trade_count := pnl.length
        win_rate :=
          if pnl.length = 0 then none
          else some ((wins.length : ℚ) / (pnl.length : ℚ))
        avg_win := if wins = [] then 0 else listMean wins
        avg_loss := if losses = [] then 0 else listMean losses
        profit_factor := profitFactorOf pnl }

/-- A kind sequence made of complete `(buy, sell)` pairs. -/
def pairedKinds : List TradeKind → Bool
  | [] => true
  | .buy :: .sell :: rest => pairedKinds rest
  | _ => false

/-- The flip of a trade kind. -/
def flipKind : TradeKind → TradeKind
  | .buy => .sell
  | .sell => .buy

/-- Strict alternation of a kind sequence, starting from the expected kind
`k`. -/
def altKinds : TradeKind → List TradeKind → Bool
  | _, [] => true
  | k, x :: rest => decide (x = k) && altKinds (flipKind k) rest

end QuantBacktest

namespace QuantBacktest

/-! ### Basic step lemmas -/

/-- The loop body never removes equity entries: it appends exactly the new
mark-to-market value of the post-transition state. -/
lemma btStep_equity (fee : ℚ) (s : BTState) (p : ℚ × ℤ) :
    (btStep fee s p).equity =
      s.equity ++ [(btStep fee s p).capital + (btStep fee s p).position * p.1] := by
  by_cases hc1 : p.2 = 1 ∧ s.position = 0
  · simp [btStep, hc1]
  · by_cases hc2 : p.2 = -1 ∧ 0 < s.position
    · simp [btStep, hc1, hc2]
    · simp [btStep, hc1, hc2]

lemma btStep_equity_length (fee : ℚ) (s : BTState) (p : ℚ × ℤ) :
    (btStep fee s p).equity.length = s.equity.length + 1 := by
  rw [btStep_equity]; simp

lemma btRun_equity_length (fee : ℚ) :
    ∀ (l : List (ℚ × ℤ)) (s : BTState),
      (btRun fee l s).equity.length = s.equity.length + l.length
  | [], _ => rfl
  | p :: rest, s => by
      rw [btRun, btRun_equity_length fee rest (btStep fee s p), btStep_equity_length,
        List.length_cons]
      omega

end QuantBacktest

namespace QuantBacktest

/-! ### Claim C5: Scenario A -/

/-- Claim C5: on prices `[10,12,9,11]`, signals `[1,0,-1,0]`, capital `100`,
fee `0`, `backtest` produces the equity curve `[100,120,90,90]` and a report
with `final_value = 90`, `total_return = -0.10`, `trade_count = 1`,
`win_rate = 0`, and `max_drawdown = -0.25`. -/
theorem scenarioA :
    ∃ r : Report, backtest [10, 12, 9, 11] [1, 0, -1, 0] 100 0 = some r ∧
      r.equity_curve = [100, 120, 90, 90] ∧
      r.final_value = 90 ∧
      r.total_return = -(1 / 10) ∧
      r.trade_count = 1 ∧
      r.win_rate = some 0 ∧
      r.max_drawdown = -(1 / 4) := by
  refine ⟨{ equity_curve := [100, 120, 90, 90]
            final_value := 90
            total_return := -(1 / 10)
            max_drawdown := -(1 / 4)
            sharpe := some (-(1 / 60), 61 / 1200)
            trade_count := 1
            win_rate := some 0
            avg_win := 0
            avg_loss := -1
            profit_factor := some 0 }, ?_, rfl, rfl, rfl, rfl, rfl, rfl⟩
  norm_num [backtest, btRun, btStep, initState, pctChange, pctChangeAux, listMean,
    sampleVar, sharpeOf, cummax, cummaxAux, drawdowns, listMin, pnlOf, profitFactorOf]

/-! ### Claim C9: out-of-range signals are no-ops -/

/-- Claim C9: a signal that is neither `+1` nor `-1` (including out-of-range
values such as `+2` or `-2`) leaves `capital` and `position` unchanged and
only appends the mark-to-market equity value — exactly what a `0` signal
does. -/
theorem signalNoOp (fee : ℚ) (s : BTState) (price : ℚ) (sig : ℤ)
    (h1 : sig ≠ 1) (h2 : sig ≠ -1) :
    btStep fee s (price, sig) =
      { s with equity := s.equity ++ [s.capital + s.position * price] } ∧
    btStep fee s (price, sig) = btStep fee s (price, 0) := by
  constructor
  · simp [btStep, h1, h2]
  · simp [btStep, h1, h2]

theorem signalNoOp_witness :
    ((2 : ℤ) ≠ 1 ∧ (2 : ℤ) ≠ -1) ∧
    btStep 0 ⟨5, 7, [12], []⟩ (2, 2) =
      { capital := 5, position := 7, equity := [12, 19], trades := [] } ∧
    btStep 0 ⟨5, 7, [12], []⟩ (2, 2) = btStep 0 ⟨5, 7, [12], []⟩ (2, 0) :=
  ⟨⟨by decide, by decide⟩,
    (signalNoOp 0 ⟨5, 7, [12], []⟩ 2 2 (by decide) (by decide)).1.trans (by norm_num),
    (signalNoOp 0 ⟨5, 7, [12], []⟩ 2 2 (by decide) (by decide)).2⟩

/-! ### Claim C2: entry and exit transitions -/

/-- Claim C2: a `+1` signal while flat converts all cash to units at the raw
price (`position = capital / price`, `capital = 0`) — the fee is not
deducted from the quantity acquired — while the ledger records the entry at
`price * (1 + fee)`; a `-1` signal while holding liquidates all units at
`price * (1 - fee)` into cash and records the exit at that adjusted price. -/
theorem entryExit (fee : ℚ) (s : BTState) (price : ℚ) (sig : ℤ) :
    (sig = 1 → s.position = 0 →
      (btStep fee s (price, sig)).position = s.capital / price ∧
      (btStep fee s (price, sig)).capital = 0 ∧
      (btStep fee s (price, sig)).trades = s.trades ++ [⟨.buy, price * (1 + fee)⟩]) ∧
    (sig = -1 → 0 < s.position →
      (btStep fee s (price, sig)).capital = s.position * (price * (1 - fee)) ∧
      (btStep fee s (price, sig)).position = 0 ∧
      (btStep fee s (price, sig)).trades = s.trades ++ [⟨.sell, price * (1 - fee)⟩]) := by
  constructor
  · rintro rfl hp
    refine ⟨?_, ?_, ?_⟩ <;> simp [btStep, hp]
  · rintro rfl hp
    refine ⟨?_, ?_, ?_⟩ <;> simp [btStep, hp, hp.ne']

theorem entryExit_witness :
    ((btStep 0 ⟨100, 0, [], []⟩ (10, 1)).position = 100 / 10 ∧
     (btStep 0 ⟨100, 0, [], []⟩ (10, 1)).capital = 0 ∧
     (btStep 0 ⟨100, 0, [], []⟩ (10, 1)).trades = [] ++ [⟨.buy, 10 * (1 + 0)⟩]) ∧
    ((btStep 0 ⟨0, 10, [100], []⟩ (9, -1)).capital = 10 * (9 * (1 - 0)) ∧
     (btStep 0 ⟨0, 10, [100], []⟩ (9, -1)).position = 0 ∧
     (btStep 0 ⟨0, 10, [100], []⟩ (9, -1)).trades = [] ++ [⟨.sell, 9 * (1 - 0)⟩]) :=
  ⟨(entryExit 0 ⟨100, 0, [], []⟩ 10 1).1 rfl rfl,
   (entryExit 0 ⟨0, 10, [100], []⟩ 9 (-1)).2 rfl (by decide)⟩

end QuantBacktest

namespace QuantBacktest

/-! ### Claim C1: flat / fully-invested exclusivity -/

/-- Every transition either zeroes the capital (entry), zeroes the position
(exit), or changes neither, so the disjunction survives any single step. -/
lemma btStep_flat_or_invested (fee : ℚ) (s : BTState) (p : ℚ × ℤ)
    (h : s.position = 0 ∨ s.capital = 0) :
    (btStep fee s p).position = 0 ∨ (btStep fee s p).capital = 0 := by
  by_cases hc1 : p.2 = 1 ∧ s.position = 0
  · right; simp [btStep, hc1]
  · by_cases hc2 : p.2 = -1 ∧ 0 < s.position
    · left; simp [btStep, hc1, hc2]
    · simpa [btStep, hc1, hc2] using h

lemma btRun_flat_or_invested (fee : ℚ) :
    ∀ (l : List (ℚ × ℤ)) (s : BTState), (s.position = 0 ∨ s.capital = 0) →
      ((btRun fee l s).position = 0 ∨ (btRun fee l s).capital = 0)
  | [], _, h => h
  | p :: rest, s, h =>
      btRun_flat_or_invested fee rest (btStep fee s p)
        (btStep_flat_or_invested fee s p h)

/-- Under positive price and a fee in `[0,1)`, a step keeps the state in
"flat with positive cash, or fully invested with positive holdings". -/
lemma btStep_excl (fee : ℚ) (s : BTState) (p : ℚ × ℤ)
    (hp : 0 < p.1) (hf0 : 0 ≤ fee) (hf1 : fee < 1)
    (h : (s.position = 0 ∧ 0 < s.capital) ∨ (s.capital = 0 ∧ 0 < s.position)) :
    ((btStep fee s p).position = 0 ∧ 0 < (btStep fee s p).capital) ∨
    ((btStep fee s p).capital = 0 ∧ 0 < (btStep fee s p).position) := by
  by_cases hc1 : p.2 = 1 ∧ s.position = 0
  · right
    rcases h with ⟨hpos, hcap⟩ | ⟨hcap, hpos⟩
    · constructor
      · simp [btStep, hc1]
      · simp only [btStep, hc1, and_self, if_true]
        exact div_pos hcap hp
    · exact absurd hc1.2 hpos.ne'
  · by_cases hc2 : p.2 = -1 ∧ 0 < s.position
    · left
      constructor
      · simp [btStep, hc1, hc2]
      · simp only [btStep, hc1, hc2, and_self, if_true, if_false]
        exact mul_pos hc2.2 (mul_pos hp (by linarith))
    · simpa [btStep, hc1, hc2] using h

lemma btRun_excl (fee : ℚ) (hf0 : 0 ≤ fee) (hf1 : fee < 1) :
    ∀ (l : List (ℚ × ℤ)) (s : BTState), (∀ pq ∈ l, 0 < pq.1) →
      ((s.position = 0 ∧ 0 < s.capital) ∨ (s.capital = 0 ∧ 0 < s.position)) →
      (((btRun fee l s).position = 0 ∧ 0 < (btRun fee l s).capital) ∨
       ((btRun fee l s).capital = 0 ∧ 0 < (btRun fee l s).position))
  | [], _, _, h => h
  | p :: rest, s, hl, h =>
      btRun_excl fee hf0 hf1 rest (btStep fee s p)
        (fun pq hk => hl pq (List.mem_cons_of_mem _ hk))
        (btStep_excl fee s p (hl p (List.mem_cons_self _ _)) hf0 hf1 h)

/-- Claim C1: after each time step of the loop — i.e. after any prefix of the
zipped series — at least one of `position = 0` (flat) or `capital = 0`
(fully invested) holds, for every series, capital and fee; and under the
preconditions (positive initial capital, positive prices, fee in `[0,1)`)
exactly one of them holds. -/
theorem flatInvestedInvariant (prices : List ℚ) (signals : List ℤ)
    (c fee : ℚ) (n : ℕ) :
    ((btRun fee ((prices.zip signals).take n) (initState c)).position = 0 ∨
     (btRun fee ((prices.zip signals).take n) (initState c)).capital = 0) ∧
    (0 < c → (∀ p ∈ prices, 0 < p) → 0 ≤ fee → fee < 1 →
      (((btRun fee ((prices.zip signals).take n) (initState c)).position = 0 ∧
        (btRun fee ((prices.zip signals).take n) (initState c)).capital ≠ 0) ∨
       ((btRun fee ((prices.zip signals).take n) (initState c)).capital = 0 ∧
        (btRun fee ((prices.zip signals).take n) (initState c)).position ≠ 0))) := by
  constructor
  · exact btRun_flat_or_invested fee _ (initState c) (Or.inl rfl)
  · intro hc hp hf0 hf1
    have hmem : ∀ pq ∈ (prices.zip signals).take n, 0 < pq.1 := by
      intro pq hk
      exact hp pq.1 (List.of_mem_zip (List.take_subset n _ hk)).1
    rcases btRun_excl fee hf0 hf1 _ (initState c) hmem (Or.inl ⟨rfl, hc⟩) with h | h
    · exact Or.inl ⟨h.1, h.2.ne'⟩
    · exact Or.inr ⟨h.1, h.2.ne'⟩

theorem flatInvestedInvariant_witness :
    (0 : ℚ) < 100 ∧
    ((btRun 0 (([(10 : ℚ)].zip [(1 : ℤ)]).take 1) (initState 100)).position = 0 ∨
     (btRun 0 (([(10 : ℚ)].zip [(1 : ℤ)]).take 1) (initState 100)).capital = 0) ∧
    (((btRun 0 (([(10 : ℚ)].zip [(1 : ℤ)]).take 1) (initState 100)).position = 0 ∧
      (btRun 0 (([(10 : ℚ)].zip [(1 : ℤ)]).take 1) (initState 100)).capital ≠ 0) ∨
     ((btRun 0 (([(10 : ℚ)].zip [(1 : ℤ)]).take 1) (initState 100)).capital = 0 ∧
      (btRun 0 (([(10 : ℚ)].zip [(1 : ℤ)]).take 1) (initState 100)).position ≠ 0)) :=
  ⟨by decide,
   (flatInvestedInvariant [10] [1] 100 0 1).1,
   (flatInvestedInvariant [10] [1] 100 0 1).2 (by decide) (by decide) (by decide)
     (by decide)⟩

end QuantBacktest

namespace QuantBacktest

/-! ### Claim C3: the trade ledger alternates entry, exit, ... -/

theorem pairedKinds_append (m : List TradeKind) :
    ∀ l, pairedKinds l = true → pairedKinds (l ++ m) = pairedKinds m
  | [], _ => rfl
  | .buy :: .sell :: rest, h => pairedKinds_append m rest h
  | [.buy], h => by simp [pairedKinds] at h
  | .buy :: .buy :: _, h => by simp [pairedKinds] at h
  | .sell :: _, h => by simp [pairedKinds] at h

theorem pairedKinds_alt (m : List TradeKind) :
    ∀ l, pairedKinds l = true → altKinds .buy (l ++ m) = altKinds .buy m
  | [], _ => rfl
  | .buy :: .sell :: rest, h => by
      simpa [altKinds, flipKind] using pairedKinds_alt m rest h
  | [.buy], h => by simp [pairedKinds] at h
  | .buy :: .buy :: _, h => by simp [pairedKinds] at h
  | .sell :: _, h => by simp [pairedKinds] at h

/-- The ledger invariant: while flat (with positive cash) the kinds recorded
so far form complete `(buy, sell)` pairs; while invested (with zero cash)
they form complete pairs followed by one trailing `buy`. -/
lemma btStep_ledger (fee : ℚ) (s : BTState) (p : ℚ × ℤ)
    (hp : 0 < p.1) (hf0 : 0 ≤ fee) (hf1 : fee < 1)
    (h : (s.position = 0 ∧ 0 < s.capital ∧
            pairedKinds (s.trades.map Trade.kind) = true) ∨
         (s.capital = 0 ∧ 0 < s.position ∧
            ∃ l, s.trades.map Trade.kind = l ++ [.buy] ∧ pairedKinds l = true)) :
    ((btStep fee s p).position = 0 ∧ 0 < (btStep fee s p).capital ∧
       pairedKinds ((btStep fee s p).trades.map Trade.kind) = true) ∨
    ((btStep fee s p).capital = 0 ∧ 0 < (btStep fee s p).position ∧
       ∃ l, (btStep fee s p).trades.map Trade.kind = l ++ [.buy] ∧
         pairedKinds l = true) := by
  by_cases hc1 : p.2 = 1 ∧ s.position = 0
  · rcases h with ⟨hpos, hcap, hk⟩ | ⟨hcap, hpos, hk⟩
    · right
      refine ⟨?_, ?_, s.trades.map Trade.kind, ?_, hk⟩
      · simp [btStep, hc1]
      · simp only [btStep, hc1, and_self, if_true]
        exact div_pos hcap hp
      · simp [btStep, hc1]
    · exact absurd hc1.2 hpos.ne'
  · by_cases hc2 : p.2 = -1 ∧ 0 < s.position
    · rcases h with ⟨hpos, hcap, hk⟩ | ⟨hcap, hpos, ⟨l, hl, hlp⟩⟩
      · exact absurd hc2.2 (by rw [hpos]; exact lt_irrefl 0)
      · left
        refine ⟨?_, ?_, ?_⟩
        · simp [btStep, hc1, hc2]
        · simp only [btStep, hc1, hc2, and_self, if_true, if_false]
          exact mul_pos hc2.2 (mul_pos hp (by linarith))
        · have : (btStep fee s p).trades.map Trade.kind =
              (l ++ [.buy]) ++ [.sell] := by
            simp [btStep, hc1, hc2, hl]
          rw [this, List.append_assoc, pairedKinds_append _ l hlp]
          rfl
    · have ht : (btStep fee s p).trades = s.trades := by
        simp [btStep, hc1, hc2]
      have hcap : (btStep fee s p).capital = s.capital := by
        simp [btStep, hc1, hc2]
      have hpos : (btStep fee s p).position = s.position := by
        simp [btStep, hc1, hc2]
      rw [ht, hcap, hpos]
      exact h

lemma btRun_ledger (fee : ℚ) (hf0 : 0 ≤ fee) (hf1 : fee < 1) :
    ∀ (l : List (ℚ × ℤ)) (s : BTState), (∀ pq ∈ l, 0 < pq.1) →
      ((s.position = 0 ∧ 0 < s.capital ∧
          pairedKinds (s.trades.map Trade.kind) = true) ∨
       (s.capital = 0 ∧ 0 < s.position ∧
          ∃ k, s.trades.map Trade.kind = k ++ [.buy] ∧ pairedKinds k = true)) →
      (((btRun fee l s).position = 0 ∧ 0 < (btRun fee l s).capital ∧
          pairedKinds ((btRun fee l s).trades.map Trade.kind) = true) ∨
       ((btRun fee l s).capital = 0 ∧ 0 < (btRun fee l s).position ∧
          ∃ k, (btRun fee l s).trades.map Trade.kind = k ++ [.buy] ∧
            pairedKinds k = true))
  | [], _, _, h => h
  | p :: rest, s, hl, h =>
      btRun_ledger fee hf0 hf1 rest (btStep fee s p)
        (fun pq hk => hl pq (List.mem_cons_of_mem _ hk))
        (btStep_ledger fee s p (hl p (List.mem_cons_self _ _)) hf0 hf1 h)

/-- Claim C3: under the contract preconditions, the kinds of the trade
ledger strictly alternate starting with an entry (`buy`); the ledger is
fully paired, or fully paired plus exactly one trailing unmatched entry. -/
theorem ledgerAlternates (prices : List ℚ) (signals : List ℤ) (c fee : ℚ)
    (hc : 0 < c) (hp : ∀ p ∈ prices, 0 < p) (hf0 : 0 ≤ fee) (hf1 : fee < 1) :
    altKinds .buy
      ((btRun fee (prices.zip signals) (initState c)).trades.map Trade.kind)
        = true ∧
    (pairedKinds
        ((btRun fee (prices.zip signals) (initState c)).trades.map Trade.kind)
          = true ∨
     ∃ l, (btRun fee (prices.zip signals) (initState c)).trades.map Trade.kind
            = l ++ [.buy] ∧ pairedKinds l = true) := by
  have hmem : ∀ pq ∈ prices.zip signals, 0 < pq.1 := by
    intro pq hk
    exact hp pq.1 (List.of_mem_zip hk).1
  have h := btRun_ledger fee hf0 hf1 (prices.zip signals) (initState c) hmem
    (Or.inl ⟨rfl, hc, rfl⟩)
  rcases h with ⟨-, -, hk⟩ | ⟨-, -, l, hl, hlp⟩
  · refine ⟨?_, Or.inl hk⟩
    have := pairedKinds_alt [] _ hk
    simpa using this
  · refine ⟨?_, Or.inr ⟨l, hl, hlp⟩⟩
    rw [hl, pairedKinds_alt [.buy] l hlp]
    rfl

theorem ledgerAlternates_witness :
    (0 : ℚ) < 100 ∧
    altKinds .buy
      ((btRun 0 ([(10 : ℚ), 12].zip [(1 : ℤ), -1]) (initState 100)).trades.map
        Trade.kind) = true ∧
    (pairedKinds
        ((btRun 0 ([(10 : ℚ), 12].zip [(1 : ℤ), -1]) (initState 100)).trades.map
          Trade.kind) = true ∨
     ∃ l, (btRun 0 ([(10 : ℚ), 12].zip [(1 : ℤ), -1]) (initState 100)).trades.map
            Trade.kind = l ++ [.buy] ∧ pairedKinds l = true) :=
  ⟨by decide,
   (ledgerAlternates [10, 12] [1, -1] 100 0 (by decide) (by decide) (by decide)
      (by decide)).1,
   (ledgerAlternates [10, 12] [1, -1] 100 0 (by decide) (by decide) (by decide)
      (by decide)).2⟩

end QuantBacktest

namespace QuantBacktest

/-! ### Extracting report fields from a successful run -/

/-- When `backtest` returns a report, the report's fields are the metric
definitions applied to the run's equity curve and trade ledger, and the
equity curve is non-empty. -/
lemma backtest_some (prices : List ℚ) (signals : List ℤ) (c fee : ℚ)
    (r : Report) (hr : backtest prices signals c fee = some r) :
    r.equity_curve = (btRun fee (prices.zip signals) (initState c)).equity ∧
    r.max_drawdown = listMin (drawdowns r.equity_curve) ∧
    r.sharpe = sharpeOf (pctChange r.equity_curve) ∧
    r.profit_factor =
      profitFactorOf (pnlOf (btRun fee (prices.zip signals) (initState c)).trades) ∧
    r.equity_curve ≠ [] := by
  simp only [backtest] at hr
  split at hr
  · exact absurd hr (by simp)
  · rename_i fv heq
    simp only [Option.some.injEq] at hr
    subst hr
    refine ⟨rfl, rfl, rfl, rfl, ?_⟩
    intro hnil
    dsimp only at hnil
    rw [hnil] at heq
    simp at heq

/-! ### Claim C6: max drawdown is non-positive -/

lemma foldl_min_le (l : List ℚ) : ∀ a : ℚ, l.foldl min a ≤ a := by
  induction l with
  | nil => intro a; simp
  | cons x t ih => intro a; exact le_trans (ih (min a x)) (min_le_left a x)

/-- The first drawdown entry is `(a - a) / a = 0`, so the minimum over the
whole drawdown series is at most `0`. -/
lemma listMin_drawdowns_nonpos (xs : List ℚ) (hne : xs ≠ []) :
    listMin (drawdowns xs) ≤ 0 := by
  cases xs with
  | nil => exact absurd rfl hne
  | cons a t =>
    have hdd : drawdowns (a :: t) =
        0 :: List.zipWith (fun e m => (e - m) / m) t (cummaxAux a t) := by
      simp [drawdowns, cummax]
    rw [hdd]
    exact foldl_min_le _ 0

lemma cummaxAux_of_chain :
    ∀ (t : List ℚ) (m : ℚ), List.Chain' (· ≤ ·) (m :: t) → cummaxAux m t = t := by
  intro t
  induction t with
  | nil => intro m _; rfl
  | cons b t' ih =>
    intro m h
    rw [List.chain'_cons] at h
    simp [cummaxAux, max_eq_right h.1, ih b h.2]

lemma foldl_min_zero : ∀ t : List ℚ, (∀ d ∈ t, d = 0) → t.foldl min 0 = 0 := by
  intro t
  induction t with
  | nil => intro _; rfl
  | cons d t' ih =>
    intro h
    rw [List.foldl_cons, h d (List.mem_cons_self d t'), min_self]
    exact ih fun x hx => h x (List.mem_cons_of_mem d hx)

/-- On a non-decreasing series the running maximum is the series itself and
every drawdown entry is `0`. -/
lemma listMin_drawdowns_of_chain (xs : List ℚ)
    (h : List.Chain' (· ≤ ·) xs) : listMin (drawdowns xs) = 0 := by
  cases xs with
  | nil => rfl
  | cons a t =>
    have hcm : cummax (a :: t) = a :: t := by
      simp [cummax, cummaxAux_of_chain t a h]
    have hdd : drawdowns (a :: t) =
        (a :: t).map (fun e => (e - e) / e) := by
      rw [drawdowns, hcm, List.zipWith_same]
    rw [hdd]
    simp only [sub_self, zero_div, listMin, List.map_cons]
    exact foldl_min_zero _ (by simp)

/-- Claim C6: under the preconditions (positive prices, positive initial
capital), the reported `max_drawdown` is at most `0`, and it equals `0`
whenever the equity curve is non-decreasing. -/
theorem maxDrawdownNonpos (prices : List ℚ) (signals : List ℤ) (c fee : ℚ)
    (r : Report) (hc : 0 < c) (hp : ∀ p ∈ prices, 0 < p)
    (hr : backtest prices signals c fee = some r) :
    r.max_drawdown ≤ 0 ∧
    (List.Chain' (· ≤ ·) r.equity_curve → r.max_drawdown = 0) := by
  obtain ⟨-, hmd, -, -, hne⟩ := backtest_some prices signals c fee r hr
  constructor
  · rw [hmd]
    exact listMin_drawdowns_nonpos _ hne
  · intro hchain
    rw [hmd]
    exact listMin_drawdowns_of_chain _ hchain

theorem maxDrawdownNonpos_witness :
    (0 : ℚ) < 100 ∧
    (Report.mk [100] 100 0 0 none 0 none 0 0 none).max_drawdown ≤ 0 ∧
    (List.Chain' (· ≤ ·) (Report.mk [100] 100 0 0 none 0 none 0 0 none).equity_curve →
      (Report.mk [100] 100 0 0 none 0 none 0 0 none).max_drawdown = 0) :=
  ⟨by decide,
   (maxDrawdownNonpos [10] [0] 100 0 (Report.mk [100] 100 0 0 none 0 none 0 0 none)
      (by decide) (by decide)
      (by norm_num [backtest, btRun, btStep, initState, pctChange, pctChangeAux,
        sharpeOf, sampleVar, cummax, cummaxAux, drawdowns, listMin, pnlOf,
        profitFactorOf])).1,
   (maxDrawdownNonpos [10] [0] 100 0 (Report.mk [100] 100 0 0 none 0 none 0 0 none)
      (by decide) (by decide)
      (by norm_num [backtest, btRun, btStep, initState, pctChange, pctChangeAux,
        sharpeOf, sampleVar, cummax, cummaxAux, drawdowns, listMin, pnlOf,
        profitFactorOf])).2⟩

end QuantBacktest

namespace QuantBacktest

/-! ### Claim C7: the Sharpe ratio and its not-a-number sentinel -/

/-- Claim C7: the reported `sharpe` is the number
`mean(returns) / std(returns) * sqrt 252` — represented by the pair
`(mean, variance)` that determines it — iff the sample standard deviation
of the period returns is non-zero and finite (the variance exists and is
non-zero); in every other case it is the not-a-number sentinel `none`,
never a thrown error. -/
theorem sharpeDefinedIff (prices : List ℚ) (signals : List ℤ) (c fee : ℚ)
    (r : Report) (hr : backtest prices signals c fee = some r) :
    (r.sharpe = none ↔
      sampleVar (pctChange r.equity_curve) = none ∨
      sampleVar (pctChange r.equity_curve) = some 0) ∧
    (∀ v, sampleVar (pctChange r.equity_curve) = some v → v ≠ 0 →
      r.sharpe = some (listMean (pctChange r.equity_curve), v)) := by
  obtain ⟨-, -, hs, -, -⟩ := backtest_some prices signals c fee r hr
  rw [hs]
  cases hv : sampleVar (pctChange r.equity_curve) with
  | none =>
    constructor
    · simp [sharpeOf, hv]
    · intro v hv' _
      exact absurd hv' (by simp)
  | some v =>
    constructor
    · by_cases h0 : v = 0
      · subst h0
        simp [sharpeOf, hv]
      · simp [sharpeOf, hv, h0]
    · intro w hw hw0
      simp only [Option.some.injEq] at hw
      subst hw
      simp [sharpeOf, hv, hw0]

theorem sharpeDefinedIff_witness :
    ((Report.mk [100, 120, 90, 90] 90 (-(1 / 10)) (-(1 / 4))
        (some (-(1 / 60), 61 / 1200)) 1 (some 0) 0 (-1) (some 0)).sharpe = none ↔
      sampleVar (pctChange [100, 120, 90, 90]) = none ∨
      sampleVar (pctChange [100, 120, 90, 90]) = some 0) ∧
    (Report.mk [100, 120, 90, 90] 90 (-(1 / 10)) (-(1 / 4))
        (some (-(1 / 60), 61 / 1200)) 1 (some 0) 0 (-1) (some 0)).sharpe =
      some (listMean (pctChange [100, 120, 90, 90]), 61 / 1200) :=
  ⟨(sharpeDefinedIff [10, 12, 9, 11] [1, 0, -1, 0] 100 0 _
      (by norm_num [backtest, btRun, btStep, initState, pctChange, pctChangeAux,
        listMean, sampleVar, sharpeOf, cummax, cummaxAux, drawdowns, listMin,
        pnlOf, profitFactorOf])).1,
   (sharpeDefinedIff [10, 12, 9, 11] [1, 0, -1, 0] 100 0 _
      (by norm_num [backtest, btRun, btStep, initState, pctChange, pctChangeAux,
        listMean, sampleVar, sharpeOf, cummax, cummaxAux, drawdowns, listMin,
        pnlOf, profitFactorOf])).2 (61 / 1200)
      (by norm_num [pctChange, pctChangeAux, sampleVar, listMean])
      (by norm_num)⟩

/-! ### Claim C8: profit factor and trade pairing -/

theorem pnlOf_append_even :
    ∀ (ts : List Trade), Even ts.length → ∀ t, pnlOf (ts ++ [t]) = pnlOf ts
  | [], _, _ => rfl
  | a :: b :: rest, h, t => by
      have hrest : Even rest.length := by
        simp only [List.length_cons] at h
        rcases h with ⟨k, hk⟩
        exact ⟨k - 1, by omega⟩
      simpa [pnlOf] using pnlOf_append_even rest hrest t
  | [a], h, _ => by
      simp only [List.length_cons, List.length_nil] at h
      exact absurd h (by decide)

/-- Claim C8: the reported `profit_factor` is
`-(sum of winning PnL) / (sum of losing PnL)` over the strictly paired
(entry, exit) trades when some paired trade has negative PnL, and the
not-a-number sentinel `none` whenever no paired trade does (including an
empty pairing); a trailing unmatched entry is excluded from the pairing. -/
theorem profitFactorSpec (ts : List Trade) :
    ((∃ p ∈ pnlOf ts, p < 0) →
      profitFactorOf (pnlOf ts) =
        some (-(((pnlOf ts).filter fun p => 0 < p).sum) /
          ((pnlOf ts).filter fun p => p < 0).sum)) ∧
    ((∀ p ∈ pnlOf ts, 0 ≤ p) → profitFactorOf (pnlOf ts) = none) ∧
    (∀ t, Even ts.length → pnlOf (ts ++ [t]) = pnlOf ts) ∧
    (∀ (prices : List ℚ) (signals : List ℤ) (c fee : ℚ) (r : Report),
      backtest prices signals c fee = some r →
      r.profit_factor =
        profitFactorOf (pnlOf (btRun fee (prices.zip signals) (initState c)).trades)) := by
  refine ⟨?_, ?_, ?_, ?_⟩
  · rintro ⟨p, hp, hp0⟩
    have hne : (pnlOf ts).filter (fun p => p < 0) ≠ [] := by
      intro hnil
      rw [List.filter_eq_nil_iff] at hnil
      exact absurd hp0 (by simpa using hnil p hp)
    simp [profitFactorOf, hne]
  · intro h
    have hnil : (pnlOf ts).filter (fun p => p < 0) = [] := by
      rw [List.filter_eq_nil_iff]
      intro a ha
      simpa using not_lt.mpr (h a ha)
    simp [profitFactorOf, hnil]
  · intro t h
    exact pnlOf_append_even ts h t
  · intro prices signals c fee r hr
    exact (backtest_some prices signals c fee r hr).2.2.2.1

theorem profitFactorSpec_witness :
    profitFactorOf (pnlOf [⟨.buy, 10⟩, ⟨.sell, 9⟩]) =
      some (-(((pnlOf [⟨.buy, 10⟩, ⟨.sell, 9⟩]).filter fun p => 0 < p).sum) /
        ((pnlOf [⟨.buy, 10⟩, ⟨.sell, 9⟩]).filter fun p => p < 0).sum) ∧
    profitFactorOf (pnlOf ([] : List Trade)) = none ∧
    pnlOf ([⟨.buy, 10⟩, ⟨.sell, 9⟩] ++ [⟨.buy, 11⟩]) =
      pnlOf [⟨.buy, 10⟩, ⟨.sell, 9⟩] ∧
    (Report.mk [100] 100 0 0 none 0 none 0 0 none).profit_factor =
      profitFactorOf (pnlOf (btRun 0 ([(10 : ℚ)].zip [(0 : ℤ)]) (initState 100)).trades) :=
  ⟨(profitFactorSpec [⟨.buy, 10⟩, ⟨.sell, 9⟩]).1
      ⟨-1, by norm_num [pnlOf], by norm_num⟩,
   (profitFactorSpec []).2.1 (by simp [pnlOf]),
   (profitFactorSpec [⟨.buy, 10⟩, ⟨.sell, 9⟩]).2.2.1 ⟨.buy, 11⟩ (by decide),
   (profitFactorSpec []).2.2.2 [10] [0] 100 0 _
     (by norm_num [backtest, btRun, btStep, initState, pctChange, pctChangeAux,
       listMean, sampleVar, sharpeOf, cummax, cummaxAux, drawdowns, listMin,
       pnlOf, profitFactorOf])⟩

end QuantBacktest

namespace QuantBacktest

/-! ### Claims C10 and C4: when a report is produced at all -/

/-- `backtest` returns a report exactly when the loop produced at least one
equity entry; an empty equity series makes the last-element access fail. -/
lemma backtest_isSome_iff (prices : List ℚ) (signals : List ℤ) (c fee : ℚ) :
    (backtest prices signals c fee).isSome = true ↔
      (btRun fee (prices.zip signals) (initState c)).equity ≠ [] := by
  simp only [backtest]
  cases heq : (btRun fee (prices.zip signals) (initState c)).equity.getLast? with
  | none =>
    have hnil : (btRun fee (prices.zip signals) (initState c)).equity = [] := by
      by_contra hne
      have hsome := List.getLast?_isSome.mpr hne
      rw [heq] at hsome
      simp at hsome
    simp [hnil]
  | some fv =>
    refine ⟨fun _ hnil => ?_, fun _ => rfl⟩
    rw [hnil] at heq
    simp at heq

/-- The number of equity entries equals the length of the zipped series. -/
lemma backtest_equity_length (prices : List ℚ) (signals : List ℤ) (c fee : ℚ) :
    (btRun fee (prices.zip signals) (initState c)).equity.length =
      min prices.length signals.length := by
  rw [btRun_equity_length]
  simp [initState, List.length_zip]

/-- Claim C10: for aligned series, `backtest` returns a report iff the input
series is non-empty; on a zero-length series the last-element access of the
empty equity curve fails instead of producing sentinel values. -/
theorem reportRequiresNonempty (prices : List ℚ) (signals : List ℤ)
    (c fee : ℚ) (hlen : prices.length = signals.length) :
    (backtest prices signals c fee).isSome = true ↔ prices ≠ [] := by
  rw [backtest_isSome_iff]
  rw [ne_eq, ← List.length_eq_zero, backtest_equity_length, ← hlen, min_self,
    ne_eq, ← List.length_eq_zero]

theorem reportRequiresNonempty_witness :
    ([(10 : ℚ)].length = [(0 : ℤ)].length) ∧
    ((backtest [10] [0] 100 0).isSome = true ↔ [(10 : ℚ)] ≠ []) :=
  ⟨rfl, reportRequiresNonempty [10] [0] 100 0 rfl⟩

/-- Claim C4 counterexample: on inputs violating the preconditions —
a fee of `2` (outside `[0,1)`), a non-positive price `-5`, and series of
mismatched lengths `2` and `1` — `backtest` still returns a computed
report instead of failing fast. -/
theorem noFailFast_cex :
    (backtest [10] [1] 100 2).isSome = true ∧
    (backtest [-5] [0] 100 0).isSome = true ∧
    (backtest [10, 20] [0] 100 0).isSome = true := by
  refine ⟨?_, ?_, ?_⟩ <;>
    norm_num [backtest, btRun, btStep, initState, pctChange, pctChangeAux,
      listMean, sampleVar, sharpeOf, cummax, cummaxAux, drawdowns, listMin,
      pnlOf, profitFactorOf]

/-- Claim C4 (amended): `backtest` performs no precondition validation at
all — misaligned series are silently truncated by `zip`, and out-of-range
fees and non-positive prices are used as-is; a report is returned exactly
when both series are non-empty, regardless of any precondition violation. -/
theorem noValidation (prices : List ℚ) (signals : List ℤ) (c fee : ℚ) :
    (backtest prices signals c fee).isSome = true ↔
      (prices ≠ [] ∧ signals ≠ []) := by
  rw [backtest_isSome_iff, ne_eq, ← List.length_eq_zero, backtest_equity_length]
  rw [ne_eq, ← List.length_eq_zero, ne_eq, ← List.length_eq_zero]
  omega

end QuantBacktest
